import Mathlib

/-!
Verification development for the atomsmm propagator composition core
(`src/atomsmm/propagators.py` and `src/atomsmm/integrators.py`).

The embedding is parametric in a field `K` of scalars standing for the
numeric values the Python code threads through emission (time fractions,
variable defaults, literal constants in expression strings).  Instantiating
`K := ℚ` gives the exact-rational semantics; instantiating `K := ℝ` lets the
irrational Suzuki-Yoshida base weight `1/(2 - 2^(1/3))` be expressed.  The
cube root of two, computed inline by the Python source as `2**(1/3)`, is
passed to `addSteps` as an explicit parameter `cbrt2` so that every
definition stays computable.
-/

/-- Arithmetic expression AST for the textual formulas the propagators emit
through the engine interface (`addComputeGlobal`/`addComputePerDof`).
`evar` covers declared variables and engine built-ins (`x`, `v`, `m`, `dt`,
`f`, `f0`, ..., `gaussian`, `random`).  Binary operators are associated the
way Python's formatter/OpenMM's parser reads the emitted strings
(left-associative products and sums). -/
inductive Expr (K : Type) where
  | const (c : K)
  | evar (name : String)
  | add (a b : Expr K)
  | sub (a b : Expr K)
  | mul (a b : Expr K)
  | div (a b : Expr K)
  | pow (a b : Expr K)
  | select (c a b : Expr K)
  | stepFn (a : Expr K)
  | sinhE (a : Expr K)
  | coshE (a : Expr K)
  | sqrtE (a : Expr K)
  | expE (a : Expr K)
  | lt (a b : Expr K)
  deriving DecidableEq

/-- One primitive call on the stepping-engine interface consumed by the
core (the `CustomIntegrator` methods used in the source).  Compute steps
carry the auxiliary-definition list of the `expr; aux1=...; aux2=...`
syntax. -/
inductive Step (K : Type) where
  | computeGlobal (v : String) (e : Expr K) (defs : List (String × Expr K))
  | computePerDof (v : String) (e : Expr K) (defs : List (String × Expr K))
  | computeSum (v : String) (e : Expr K)
  | beginWhile (cond : Expr K)
  | beginIf (cond : Expr K)
  | endBlock
  | constrainPositions
  | constrainVelocities
  | updateContextState
  deriving DecidableEq

/-- Python dict assignment `d[k] = v`: replace the value in place if the
key is present (keeping insertion order), otherwise append the new pair. -/
def dictInsert {K : Type} (d : List (String × K)) (k : String) (v : K) :
    List (String × K) :=
  match d with
  | [] => [(k, v)]
  | (a, b) :: t => if a = k then (a, v) :: t else (a, b) :: dictInsert t k v

/-- Python `d.update(e)`: iterate over `e` assigning each pair into `d`. -/
def dictUpdate {K : Type} (d e : List (String × K)) : List (String × K) :=
  e.foldl (fun acc p => dictInsert acc p.1 p.2) d

/-- Lookup of a key in an association list modelling a Python dict. -/
def rlookup {K : Type} (a : String) : List (String × K) → Option K
  | [] => none
  | (k, v) :: t => if a = k then some v else rlookup a t

/-- Keys of a registry in insertion order. -/
def rkeys {K : Type} (d : List (String × K)) : List String :=
  d.map Prod.fst

theorem rlookup_dictInsert {K : Type} (d : List (String × K)) (k a : String) (v : K) :
    rlookup a (dictInsert d k v) = if a = k then some v else rlookup a d := by
  induction d with
  | nil => simp [dictInsert, rlookup]
  | cons hd t ih =>
    obtain ⟨x, y⟩ := hd
    by_cases hxk : x = k
    · subst hxk
      by_cases hax : a = x <;> simp [dictInsert, rlookup, hax]
    · by_cases hax : a = x
      · subst hax
        simp [dictInsert, rlookup, hxk, Ne.symm hxk]
      · simp [dictInsert, rlookup, hxk, hax, ih]

theorem rkeys_dictInsert {K : Type} (d : List (String × K)) (k : String) (v : K) :
    rkeys (dictInsert d k v) = if k ∈ rkeys d then rkeys d else rkeys d ++ [k] := by
  induction d with
  | nil => simp [dictInsert, rkeys]
  | cons hd t ih =>
    obtain ⟨x, y⟩ := hd
    by_cases hxk : x = k
    · subst hxk
      simp [dictInsert, rkeys]
    · have h1 : dictInsert ((x, y) :: t) k v = (x, y) :: dictInsert t k v := by
        simp [dictInsert, hxk]
      have h2 : rkeys ((x, y) :: dictInsert t k v) = x :: rkeys (dictInsert t k v) := rfl
      have h3 : rkeys ((x, y) :: t) = x :: rkeys t := rfl
      rw [h1, h2, h3, ih]
      by_cases hmem : k ∈ rkeys t
      · simp [hmem]
      · simp [hmem, Ne.symm hxk]

theorem rlookup_eq_none_iff {K : Type} (d : List (String × K)) (a : String) :
    rlookup a d = none ↔ a ∉ rkeys d := by
  induction d with
  | nil => simp [rlookup, rkeys]
  | cons hd t ih =>
    obtain ⟨x, y⟩ := hd
    by_cases hax : a = x
    · simp [rlookup, rkeys, hax]
    · simp [rlookup, rkeys, hax, ih]

/-- A registry is well formed when no key occurs twice; this is the
invariant that Python dicts maintain automatically. -/
def KeysNodup {K : Type} (d : List (String × K)) : Prop :=
  (rkeys d).Nodup

theorem keysNodup_dictInsert {K : Type} (d : List (String × K)) (k : String) (v : K)
    (h : KeysNodup d) : KeysNodup (dictInsert d k v) := by
  unfold KeysNodup at h ⊢
  rw [rkeys_dictInsert]
  by_cases hmem : k ∈ rkeys d
  · simpa [hmem]
  · simp [hmem, List.nodup_append, h]

theorem keysNodup_dictUpdate {K : Type} (d e : List (String × K))
    (h : KeysNodup d) : KeysNodup (dictUpdate d e) := by
  induction e generalizing d with
  | nil => simpa [dictUpdate]
  | cons p t ih =>
    have hstep : dictUpdate d (p :: t) = dictUpdate (dictInsert d p.1 p.2) t := by
      simp [dictUpdate]
    rw [hstep]
    exact ih _ (keysNodup_dictInsert d p.1 p.2 h)

theorem rlookup_dictUpdate {K : Type} (d e : List (String × K))
    (he : KeysNodup e) (a : String) :
    rlookup a (dictUpdate d e) = (rlookup a e).orElse (fun _ => rlookup a d) := by
  induction e generalizing d with
  | nil => simp [dictUpdate, rlookup, Option.orElse]
  | cons p t ih =>
    obtain ⟨k, v⟩ := p
    have hstep : dictUpdate d ((k, v) :: t) = dictUpdate (dictInsert d k v) t := by
      simp [dictUpdate]
    unfold KeysNodup at he
    simp [rkeys] at he
    obtain ⟨hk, ht⟩ := he
    rw [hstep, ih _ (by simpa [KeysNodup, rkeys] using ht)]
    by_cases hak : a = k
    · subst hak
      have hnone : rlookup a t = none := by
        rw [rlookup_eq_none_iff]
        intro hmem
        simp [rkeys] at hmem
        obtain ⟨b, hb⟩ := hmem
        exact hk b hb
      simp [hnone, rlookup_dictInsert, rlookup, Option.orElse]
    · simp [rlookup_dictInsert, hak, rlookup, Option.orElse]

/-- Propagator composition trees covering the leaf operators and the
combinators of `propagators.py` that the claims quantify over.  Leaves carry
the numeric parameters their constructors store (`kT = kB*temperature`,
`Q = kB*temperature*timeConstant^2`, the friction coefficient); the
Suzuki-Yoshida node carries the integer order `nsy`. -/
inductive Propg (K : Type) where
  | translation
  | boost
  | isokineticF (kT : K)
  | isokineticN (kT Q : K)
  | ornsteinUhlenbeck (kT Q friction : K) (forced : Bool)
  | velocityVerlet
  | respa (loops : List Nat)
  | chained (A B : Propg K)
  | trotterSuzuki (A B : Propg K)
  | suzukiYoshida (A : Propg K) (nsy : Int)
  deriving DecidableEq

/-- Name of the per-level loop counter global variable of the RESPA
propagator (the Python string `"n{}".format(i)`). -/
def counterName (g : Nat) : String := "n" ++ toString g

/-- Name of the force built-in for force group `g` (`"f{}".format(g)`). -/
def forceName (g : Nat) : String := "f" ++ toString g

/-- Global-variable registry of a propagator, mirroring each `__init__`:
leaves fill their dict by assignment, the binary combinators start from an
empty dict and run `update` with `A`'s registry and then `B`'s, and the
Suzuki-Yoshida combinator runs `update` with its single child's registry. -/
def globalVariables {K : Type} [Field K] : Propg K → List (String × K)
  | .translation => []
  | .boost => []
  | .isokineticF kT => [("kT", kT)]
  | .isokineticN kT Q => [("kT", kT), ("Q1", Q), ("Q2", Q)]
  | .ornsteinUhlenbeck kT Q friction _ =>
      [("kT", kT), ("Q1", Q), ("Q2", Q), ("friction", friction)]
  | .velocityVerlet => []
  | .respa loops =>
      loops.enum.foldl
        (fun acc p => if 1 < p.2 then dictInsert acc (counterName p.1) 0 else acc) []
  | .chained A B => dictUpdate (dictUpdate [] (globalVariables A)) (globalVariables B)
  | .trotterSuzuki A B => dictUpdate (dictUpdate [] (globalVariables A)) (globalVariables B)
  | .suzukiYoshida A _ => dictUpdate [] (globalVariables A)

/-- Per-dof-variable registry of a propagator, mirroring each `__init__`. -/
def perDofVariables {K : Type} [Field K] : Propg K → List (String × K)
  | .translation => []
  | .boost => []
  | .isokineticF _ =>
      [("v1", 0), ("v2", 0), ("lambda0dt", 0), ("bdt", 0), ("coshxm1_x2", 0), ("sinhx_x", 0)]
  | .isokineticN _ _ => [("v1", 0), ("v2", 0), ("scalingFactor", 0)]
  | .ornsteinUhlenbeck _ _ _ _ => [("v1", 0), ("v2", 0)]
  | .velocityVerlet => [("x0", 0)]
  | .respa _ => []
  | .chained A B => dictUpdate (dictUpdate [] (perDofVariables A)) (perDofVariables B)
  | .trotterSuzuki A B => dictUpdate (dictUpdate [] (perDofVariables A)) (perDofVariables B)
  | .suzukiYoshida A _ => dictUpdate [] (perDofVariables A)

/-- Persistence marking of a propagator (`self.persistent`): `none` models
the Python value `None`, `some l` models a list of persistent variable
names.  The base class initializes it to the empty list and none of the
combinators ever touches it. -/
def persistent {K : Type} : Propg K → Option (List String)
  | .translation => some []
  | .boost => some []
  | .isokineticF _ => some ["kT", "v1", "v2"]
  | .isokineticN _ _ => some ["kT", "v1", "v2", "Q1", "Q2"]
  | .ornsteinUhlenbeck _ _ _ _ => some ["kT", "v1", "v2", "Q1", "Q2", "friction"]
  | .velocityVerlet => none
  | .respa _ => none
  | .chained _ _ => some []
  | .trotterSuzuki _ _ => some []
  | .suzukiYoshida _ _ => some []

/-- Suzuki-Yoshida weight table of `SuzukiYoshidaPropagator.addSteps`,
indexed by `nsy`; the `nsy = 3` branch uses the base weight
`1/(2 - 2**(1/3))`, whose cube root of two is the parameter `cbrt2`.
The decimal literals of the source are transcribed as exact rationals. -/
def syWeights {K : Type} [Field K] (cbrt2 : K) (nsy : Int) : List K :=
  if nsy = 15 then
    [(102799849391985 : K) / 10 ^ 15, -((196061023297549 : K) / 10 ^ 14),
     (193813913762276 : K) / 10 ^ 14, -((158240635368243 : K) / 10 ^ 15),
     -((144485223686048 : K) / 10 ^ 14), (253693336566229 : K) / 10 ^ 15,
     (914844246229740 : K) / 10 ^ 15]
  else if nsy = 7 then
    [(784513610477560 : K) / 10 ^ 15, (235573213359357 : K) / 10 ^ 15,
     -((117767998417887 : K) / 10 ^ 14)]
  else
    [1 / (2 - cbrt2)]

/-- The weight sequence iterated by `SuzukiYoshidaPropagator.addSteps`:
`list(reversed(weights)) + [1 - 2*sum(weights)] + weights`. -/
def syWeightSeq {K : Type} [Field K] (cbrt2 : K) (nsy : Int) : List K :=
  (syWeights cbrt2 nsy).reverse ++ [1 - 2 * (syWeights cbrt2 nsy).sum] ++ syWeights cbrt2 nsy

/-- Structured form of the step sequence `RespaPropagator._addSubsteps`
emits: a `loopNode` stands for the engine-level while block controlled by
the per-level counter (initialized by `ctrInit`, incremented by `ctrInc`
as the last statement of the loop body); `boostStep g c` is the half
velocity boost `v + c*dt*f{g}/m` and `posStep c` the innermost position
update `x + c*dt*v`. -/
inductive RProg (K : Type) where
  | ctrInit (g : Nat)
  | ctrInc (g : Nat)
  | boostStep (g : Nat) (c : K)
  | posStep (c : K)
  | loopNode (g : Nat) (n : Nat) (body : List (RProg K))

/-- Recursive emission of `RespaPropagator._addSubsteps(integrator, group,
fraction)`: with `n = loops[group]`, the body is the half boost at
`0.5*fraction/n`, then (at group 0) the position update at `fraction/n` or
(otherwise) the recursion into `group - 1` at `fraction/n`, then the second
half boost; for `n > 1` the body is wrapped in the counter-controlled while
block. -/
def respaProg {K : Type} [Field K] (loops : List Nat) : Nat → K → List (RProg K)
  | 0, f =>
    let n := loops.getD 0 1
    let inner : List (RProg K) :=
      [.boostStep 0 (1 / 2 * f / (n : K)), .posStep (f / (n : K)),
       .boostStep 0 (1 / 2 * f / (n : K))]
    if 1 < n then [.ctrInit 0, .loopNode 0 n (inner ++ [.ctrInc 0])] else inner
  | g + 1, f =>
    let n := loops.getD (g + 1) 1
    let inner : List (RProg K) :=
      [RProg.boostStep (g + 1) (1 / 2 * f / (n : K))] ++ respaProg loops g (f / (n : K)) ++
        [RProg.boostStep (g + 1) (1 / 2 * f / (n : K))]
    if 1 < n then [.ctrInit (g + 1), .loopNode (g + 1) n (inner ++ [.ctrInc (g + 1)])] else inner

/-- Flattening of the structured RESPA program into the flat sequence of
engine calls the source makes, in source order: counter reset, while block
begin, body, counter increment, block end. -/
def flattenR {K : Type} [Field K] : List (RProg K) → List (Step K)
  | [] => []
  | RProg.ctrInit g :: rest =>
      Step.computeGlobal (counterName g) (.const 0) [] :: flattenR rest
  | RProg.ctrInc g :: rest =>
      Step.computeGlobal (counterName g) (.add (.evar (counterName g)) (.const 1)) [] ::
        flattenR rest
  | RProg.boostStep g c :: rest =>
      Step.computePerDof "v"
          (.add (.evar "v")
            (.div (.mul (.mul (.const c) (.evar "dt")) (.evar (forceName g))) (.evar "m"))) [] ::
        flattenR rest
  | RProg.posStep c :: rest =>
      Step.computePerDof "x"
          (.add (.evar "x") (.mul (.mul (.const c) (.evar "dt")) (.evar "v"))) [] ::
        flattenR rest
  | RProg.loopNode g n body :: rest =>
      Step.beginWhile (.lt (.evar (counterName g)) (.const (n : K))) ::
        (flattenR body ++ (Step.endBlock :: flattenR rest))

/-- Step emission `addSteps(integrator, fraction)` of every propagator,
as the ordered list of engine calls it makes.  Expressions transcribe the
format strings of the source with the fraction-derived numeric literal held
in a `const` node. -/
def addSteps {K : Type} [Field K] (cbrt2 : K) : Propg K → K → List (Step K)
  | .translation, f =>
      [.computePerDof "x" (.add (.evar "x") (.mul (.mul (.const f) (.evar "dt")) (.evar "v"))) []]
  | .boost, f =>
      [.computePerDof "v"
        (.add (.evar "v")
          (.div (.mul (.mul (.const f) (.evar "dt")) (.evar "f")) (.evar "m"))) []]
  | .isokineticF _, f =>
      [.computePerDof "lambda0dt"
        (.div (.mul (.mul (.mul (.const f) (.evar "dt")) (.evar "f")) (.evar "v")) (.evar "kT"))
        [],
       .computePerDof "bdt"
        (.mul (.mul (.const f) (.evar "dt"))
          (.sqrtE (.div (.mul (.evar "f") (.evar "f")) (.mul (.evar "m") (.evar "kT"))))) [],
       .computePerDof "sinhx_x"
        (.select (.stepFn (.sub (.evar "bdt") (.const (1 / 10000)))) (.evar "direct")
          (.evar "safe"))
        [("direct", .div (.sinhE (.evar "bdt")) (.evar "bdt")),
         ("safe",
           .add (.div (.mul (.add (.div (.mul (.add (.div (.evar "x") (.const 42)) (.const 1))
             (.evar "x")) (.const 20)) (.const 1)) (.evar "x")) (.const 6)) (.const 1)),
         ("x", .pow (.evar "bdt") (.const 2))],
       .computePerDof "coshxm1_x2"
        (.select (.stepFn (.sub (.evar "bdt") (.const (1 / 1000)))) (.evar "direct")
          (.evar "safe"))
        [("direct", .div (.sub (.coshE (.evar "bdt")) (.const 1)) (.evar "x")),
         ("safe",
           .add (.div (.mul (.add (.div (.mul (.add (.div (.evar "x") (.const 56)) (.const 1))
             (.evar "x")) (.const 30)) (.const 1)) (.evar "x")) (.const 24)) (.const (1 / 2))),
         ("x", .pow (.evar "bdt") (.const 2))],
       .computePerDof "v"
        (.div (.add (.evar "v") (.div (.mul (.evar "s") (.evar "f")) (.evar "m"))) (.evar "sdif"))
        [("s", .mul (.mul (.const f) (.evar "dt"))
            (.add (.mul (.evar "lambda0dt") (.evar "coshxm1_x2")) (.evar "sinhx_x"))),
         ("sdif", .add (.add (.mul (.evar "lambda0dt") (.evar "sinhx_x"))
            (.mul (.mul (.evar "bdt") (.evar "bdt")) (.evar "coshxm1_x2"))) (.const 1))],
       .computePerDof "v1" (.div (.evar "v1") (.evar "sdif"))
        [("sdif", .add (.add (.mul (.evar "lambda0dt") (.evar "sinhx_x"))
            (.mul (.mul (.evar "bdt") (.evar "bdt")) (.evar "coshxm1_x2"))) (.const 1))]]
  | .isokineticN _ _, f =>
      [.computePerDof "v1"
        (.mul (.evar "v1")
          (.expE (.mul (.mul (.const (-f)) (.evar "dt")) (.evar "v2")))) [],
       .computePerDof "scalingFactor"
        (.sqrtE (.div (.evar "kT")
          (.add (.mul (.mul (.evar "m") (.evar "v")) (.evar "v"))
            (.mul (.mul (.mul (.const (1 / 2)) (.evar "Q1")) (.evar "v1")) (.evar "v1"))))) [],
       .computePerDof "v" (.mul (.evar "v") (.evar "scalingFactor")) [],
       .computePerDof "v1" (.mul (.evar "v1") (.evar "scalingFactor")) []]
  | .ornsteinUhlenbeck _ _ _ forced, f =>
      [.computePerDof "v2"
        (.add
          (.add (.mul (.evar "x") (.evar "v2"))
            (.div (.mul (.evar "G") (.sub (.const 1) (.evar "x"))) (.evar "friction")))
          (.mul
            (.sqrtE (.mul (.div (.evar "kT") (.evar "Q2"))
              (.sub (.const 1) (.pow (.evar "x") (.const 2)))))
            (.evar "gaussian")))
        [("G",
          if forced then
            .div (.sub (.mul (.mul (.evar "Q1") (.evar "v1")) (.evar "v1")) (.evar "kT"))
              (.evar "Q2")
          else .const 0),
         ("x", .expE (.mul (.mul (.const (-f)) (.evar "friction")) (.evar "dt")))]]
  | .velocityVerlet, f =>
      [.computePerDof "v"
        (.add (.evar "v")
          (.div (.mul (.mul (.const (1 / 2)) (.evar "Dt")) (.evar "f")) (.evar "m")))
        [("Dt", .mul (.const f) (.evar "dt"))],
       .computePerDof "x0" (.evar "x") [],
       .computePerDof "x" (.add (.evar "x") (.mul (.evar "Dt") (.evar "v")))
        [("Dt", .mul (.const f) (.evar "dt"))],
       .constrainPositions,
       .computePerDof "v"
        (.add (.div (.sub (.evar "x") (.evar "x0")) (.evar "Dt"))
          (.div (.mul (.mul (.const (1 / 2)) (.evar "Dt")) (.evar "f")) (.evar "m")))
        [("Dt", .mul (.const f) (.evar "dt"))],
       .constrainVelocities]
  | .respa loops, f => flattenR (respaProg loops (loops.length - 1) f)
  | .chained A B, f => addSteps cbrt2 B f ++ addSteps cbrt2 A f
  | .trotterSuzuki A B, f =>
      addSteps cbrt2 B (1 / 2 * f) ++ addSteps cbrt2 A f ++ addSteps cbrt2 B (1 / 2 * f)
  | .suzukiYoshida A nsy, f =>
      (syWeightSeq cbrt2 nsy).bind (fun w => addSteps cbrt2 A (f * w))
termination_by p _ => sizeOf p

mutual

/-- Runtime effect of one structured RESPA statement: a while block whose
counter starts at `0` and increments once per iteration while `counter < n`
executes its body exactly `n` times; every other statement executes once. -/
def execR1 {K : Type} : RProg K → List (RProg K)
  | .ctrInit g => [.ctrInit g]
  | .ctrInc g => [.ctrInc g]
  | .boostStep g c => [.boostStep g c]
  | .posStep c => [.posStep c]
  | .loopNode _ n body => (List.replicate n (execRL body)).join

/-- Runtime unrolling of a structured RESPA statement list. -/
def execRL {K : Type} : List (RProg K) → List (RProg K)
  | [] => []
  | p :: rest => execR1 p ++ execRL rest

end

/-- Recognizer for the innermost position-update kernel. -/
def isPosStep {K : Type} : RProg K → Bool
  | .posStep _ => true
  | _ => false

/-- Time fraction carried by a position update (zero on anything else). -/
def posFrac {K : Type} [Field K] : RProg K → K
  | .posStep c => c
  | _ => 0

/-- Number of executed position updates. -/
def posCount {K : Type} (l : List (RProg K)) : Nat :=
  l.countP isPosStep

/-- Accumulated position-update fraction of an executed statement list. -/
def posFracSum {K : Type} [Field K] (l : List (RProg K)) : K :=
  (l.map posFrac).sum

theorem execRL_append {K : Type} (a b : List (RProg K)) :
    execRL (a ++ b) = execRL a ++ execRL b := by
  induction a with
  | nil => simp [execRL]
  | cons p rest ih => simp [execRL, ih]

theorem posCount_append {K : Type} (a b : List (RProg K)) :
    posCount (a ++ b) = posCount a + posCount b := by
  simp [posCount, List.countP_append]

theorem posFracSum_append {K : Type} [Field K] (a b : List (RProg K)) :
    posFracSum (a ++ b) = posFracSum a + posFracSum b := by
  simp [posFracSum]

theorem posCount_join_replicate {K : Type} (n : Nat) (L : List (RProg K)) :
    posCount (List.replicate n L).join = n * posCount L := by
  induction n with
  | zero => simp [posCount]
  | succ m ih =>
    simp [List.replicate_succ, posCount_append, ih, Nat.succ_mul, Nat.add_comm]

theorem posFracSum_join_replicate {K : Type} [Field K] (n : Nat) (L : List (RProg K)) :
    posFracSum (List.replicate n L).join = (n : K) * posFracSum L := by
  induction n with
  | zero => simp [posFracSum]
  | succ m ih =>
    have hsplit : (List.replicate (m + 1) L).join = L ++ (List.replicate m L).join := by
      simp [List.replicate_succ]
    rw [hsplit, posFracSum_append, ih]
    push_cast
    ring

theorem posCount_branch {K : Type} [Field K] (g n : Nat) (hn : 1 ≤ n)
    (inner : List (RProg K)) :
    posCount (execRL
      (if 1 < n then [RProg.ctrInit g, RProg.loopNode g n (inner ++ [RProg.ctrInc g])]
       else inner)) = n * posCount (execRL inner) := by
  by_cases h : 1 < n
  · simp [h, execRL, execR1, posCount_append, posCount_join_replicate, execRL_append,
      posCount, List.countP_append, isPosStep]
  · have hn1 : n = 1 := le_antisymm (not_lt.mp h) hn
    simp [h, hn1]

theorem posFracSum_branch {K : Type} [Field K] (g n : Nat) (hn : 1 ≤ n)
    (inner : List (RProg K)) :
    posFracSum (execRL
      (if 1 < n then [RProg.ctrInit g, RProg.loopNode g n (inner ++ [RProg.ctrInc g])]
       else inner)) = (n : K) * posFracSum (execRL inner) := by
  by_cases h : 1 < n
  · simp [h, execRL, execR1, posFracSum_append, posFracSum_join_replicate, execRL_append,
      posFracSum, posFrac]
  · have hn1 : n = 1 := le_antisymm (not_lt.mp h) hn
    simp [h, hn1]

theorem prod_take_succ_of_lt (loops : List Nat) (g : Nat) (h : g < loops.length) :
    (loops.take (g + 1)).prod = (loops.take g).prod * loops.getD g 1 := by
  rw [List.take_succ]
  have hsome : loops[g]? = some (loops.getD g 1) := by
    rw [List.getElem?_eq_getElem h]
    simp [List.getD_eq_getElem?_getD, List.getElem?_eq_getElem h]
  rw [hsome]
  simp

theorem getD_mem_of_lt (loops : List Nat) (i : Nat) (h : i < loops.length) :
    loops.getD i 1 ∈ loops := by
  rw [List.getD_eq_getElem?_getD, List.getElem?_eq_getElem h]
  exact List.getElem_mem h

theorem respaExec_count_sum (loops : List Nat) (hpos : ∀ n ∈ loops, 1 ≤ n) :
    ∀ g, g < loops.length → ∀ f : ℚ,
      posCount (execRL (respaProg loops g f)) = (loops.take (g + 1)).prod
      ∧ posFracSum (execRL (respaProg loops g f)) = f := by
  intro g
  induction g with
  | zero =>
    intro h f
    have hn : 1 ≤ loops.getD 0 1 := hpos _ (getD_mem_of_lt _ _ h)
    have hq : (loops.getD 0 1 : ℚ) ≠ 0 := by
      exact_mod_cast Nat.one_le_iff_ne_zero.mp hn
    constructor
    · rw [respaProg, posCount_branch _ _ hn]
      have : posCount (execRL
          [RProg.boostStep (K := ℚ) 0 (1 / 2 * f / (loops.getD 0 1 : ℚ)),
           RProg.posStep (f / (loops.getD 0 1 : ℚ)),
           RProg.boostStep 0 (1 / 2 * f / (loops.getD 0 1 : ℚ))]) = 1 := by
        simp [execRL, execR1, posCount, List.countP_cons, isPosStep]
      rw [this, prod_take_succ_of_lt _ _ h]
      simp
    · rw [respaProg, posFracSum_branch _ _ hn]
      have : posFracSum (execRL
          [RProg.boostStep (K := ℚ) 0 (1 / 2 * f / (loops.getD 0 1 : ℚ)),
           RProg.posStep (f / (loops.getD 0 1 : ℚ)),
           RProg.boostStep 0 (1 / 2 * f / (loops.getD 0 1 : ℚ))]) =
          f / (loops.getD 0 1 : ℚ) := by
        simp [execRL, execR1, posFracSum, posFrac]
      rw [this, mul_comm]
      exact div_mul_cancel₀ f hq
  | succ g ih =>
    intro h f
    have hg : g < loops.length := Nat.lt_of_succ_lt h
    have hn : 1 ≤ loops.getD (g + 1) 1 := hpos _ (getD_mem_of_lt _ _ h)
    have hq : (loops.getD (g + 1) 1 : ℚ) ≠ 0 := by
      exact_mod_cast Nat.one_le_iff_ne_zero.mp hn
    obtain ⟨ihc, ihs⟩ := ih hg (f / (loops.getD (g + 1) 1 : ℚ))
    constructor
    · rw [respaProg, posCount_branch _ _ hn]
      rw [execRL_append, execRL_append, posCount_append, posCount_append]
      have h1 : posCount (execRL [RProg.boostStep (K := ℚ) (g + 1)
          (1 / 2 * f / (loops.getD (g + 1) 1 : ℚ))]) = 0 := by
        simp [execRL, execR1, posCount, isPosStep]
      rw [h1, ihc, prod_take_succ_of_lt _ _ h]
      ring
    · rw [respaProg, posFracSum_branch _ _ hn]
      rw [execRL_append, execRL_append, posFracSum_append, posFracSum_append]
      have h1 : posFracSum (execRL [RProg.boostStep (K := ℚ) (g + 1)
          (1 / 2 * f / (loops.getD (g + 1) 1 : ℚ))]) = 0 := by
        simp [execRL, execR1, posFracSum, posFrac]
      rw [h1, ihs, zero_add, add_zero, mul_comm]
      exact div_mul_cancel₀ f hq

/-- Named error condition for invalid user input.  Modelled from the spec:
the exception class `InputError` is defined in `atomsmm.utils`, which is not
among the sources; the spec requires failures to surface as distinct, named
error conditions carrying a message, and the sources raise
`atomsmm.utils.InputError(...)`. -/
inductive AtomsmmError where
  | inputError (msg : String)
  deriving DecidableEq

/-- Constructor of `ChainedPropagator` and (identically) of
`TrotterSuzukiPropagator`: both `__init__` bodies deep-copy the children
and fold their registries into the composite with plain dict `update`
calls; no consistency check exists and no exception is ever raised. -/
def mkChained {K : Type} [Field K] (A B : Propg K) : Except AtomsmmError (Propg K) :=
  Except.ok (.chained A B)

/-- Constructor of `TrotterSuzukiPropagator`; same body as `mkChained`. -/
def mkTrotterSuzuki {K : Type} [Field K] (A B : Propg K) : Except AtomsmmError (Propg K) :=
  Except.ok (.trotterSuzuki A B)

/-- Constructor of `SuzukiYoshidaPropagator`: an `nsy` outside `{3, 7, 15}`
raises `InputError` before the object is built. -/
def mkSuzukiYoshida {K : Type} [Field K] (A : Propg K) (nsy : Int) :
    Except AtomsmmError (Propg K) :=
  if nsy ∉ ([3, 7, 15] : List Int) then
    Except.error (.inputError "SuzukiYoshidaPropagator accepts nsy = 3, 7, or 15 only")
  else Except.ok (.suzukiYoshida A nsy)

theorem keysNodup_fold_counters {K : Type} [Field K] (l : List (Nat × Nat))
    (acc : List (String × K)) (h : KeysNodup acc) :
    KeysNodup (l.foldl
      (fun acc p => if 1 < p.2 then dictInsert acc (counterName p.1) 0 else acc) acc) := by
  induction l generalizing acc with
  | nil => simpa
  | cons p t ih =>
    by_cases h2 : 1 < p.2
    · simpa [h2] using ih (dictInsert acc (counterName p.1) 0)
        (keysNodup_dictInsert _ _ _ h)
    · simpa [h2] using ih acc h

/-- Registries are well-formed dicts: keys never repeat (Python dicts
guarantee this; in the model every registry is built by `dictInsert` and
`dictUpdate`). -/
theorem keysNodup_registries {K : Type} [Field K] (P : Propg K) :
    KeysNodup (globalVariables P) ∧ KeysNodup (perDofVariables P) := by
  induction P with
  | translation => exact ⟨by simp [globalVariables, KeysNodup, rkeys],
      by simp [perDofVariables, KeysNodup, rkeys]⟩
  | boost => exact ⟨by simp [globalVariables, KeysNodup, rkeys],
      by simp [perDofVariables, KeysNodup, rkeys]⟩
  | isokineticF kT => exact ⟨by simp [globalVariables, KeysNodup, rkeys],
      by simp [perDofVariables, KeysNodup, rkeys]⟩
  | isokineticN kT Q => exact ⟨by simp [globalVariables, KeysNodup, rkeys],
      by simp [perDofVariables, KeysNodup, rkeys]⟩
  | ornsteinUhlenbeck kT Q friction forced =>
      exact ⟨by simp [globalVariables, KeysNodup, rkeys],
        by simp [perDofVariables, KeysNodup, rkeys]⟩
  | velocityVerlet => exact ⟨by simp [globalVariables, KeysNodup, rkeys],
      by simp [perDofVariables, KeysNodup, rkeys]⟩
  | respa loops =>
      refine ⟨?_, by simp [perDofVariables, KeysNodup, rkeys]⟩
      exact keysNodup_fold_counters _ _ (by simp [KeysNodup, rkeys])
  | chained A B ihA ihB =>
      exact ⟨keysNodup_dictUpdate _ _ (keysNodup_dictUpdate _ _ (by simp [KeysNodup, rkeys])),
        keysNodup_dictUpdate _ _ (keysNodup_dictUpdate _ _ (by simp [KeysNodup, rkeys]))⟩
  | trotterSuzuki A B ihA ihB =>
      exact ⟨keysNodup_dictUpdate _ _ (keysNodup_dictUpdate _ _ (by simp [KeysNodup, rkeys])),
        keysNodup_dictUpdate _ _ (keysNodup_dictUpdate _ _ (by simp [KeysNodup, rkeys]))⟩
  | suzukiYoshida A nsy ihA =>
      exact ⟨keysNodup_dictUpdate _ _ (by simp [KeysNodup, rkeys]),
        keysNodup_dictUpdate _ _ (by simp [KeysNodup, rkeys])⟩

/-- Free symbols of an expression, in order of appearance (the model of
the sympy `free_symbols` collection in `Integrator._required_variables`;
only membership matters downstream). -/
def freeVars {K : Type} : Expr K → List String
  | .const _ => []
  | .evar s => [s]
  | .add a b => freeVars a ++ freeVars b
  | .sub a b => freeVars a ++ freeVars b
  | .mul a b => freeVars a ++ freeVars b
  | .div a b => freeVars a ++ freeVars b
  | .pow a b => freeVars a ++ freeVars b
  | .select c a b => freeVars c ++ (freeVars a ++ freeVars b)
  | .stepFn a => freeVars a
  | .sinhE a => freeVars a
  | .coshE a => freeVars a
  | .sqrtE a => freeVars a
  | .expE a => freeVars a
  | .lt a b => freeVars a ++ freeVars b

/-- `Integrator._required_variables`: all symbols used on the right-hand
sides of the operation (main expression plus auxiliary definitions), minus
the assigned name and the auxiliary definition names. -/
def requiredVariables {K : Type} (v : String) (e : Expr K)
    (defs : List (String × Expr K)) : List String :=
  let names := v :: defs.map Prod.fst
  let symbols := freeVars e ++ defs.bind (fun d => freeVars d.2)
  symbols.filter (fun s => decide (s ∉ names))

/-- Mutable state of an `Integrator` object relevant to step assembly: the
emitted step program and the two staleness flags set in `__init__`. -/
structure IState (K : Type) where
  steps : List (Step K)
  obsoleteKinetic : Bool
  obsoleteContextState : Bool
  deriving DecidableEq

/-- Freshly constructed integrator: empty program, both flags `True`. -/
def initIState (K : Type) : IState K :=
  { steps := [], obsoleteKinetic := true, obsoleteContextState := true }

/-- The automatically inserted kinetic-energy accumulation
`addComputeSum("mvv", "m*v*v")`. -/
def mvvSumStep (K : Type) [Field K] : Step K :=
  .computeSum "mvv" (.mul (.mul (.evar "m") (.evar "v")) (.evar "v"))

/-- First half of `Integrator._checkUpdate`: if the kinetic energy is
stale and the operation requires `mvv`, append the `mvv` sum and clear the
flag. -/
def checkKinetic {K : Type} [Field K] (s : IState K) (req : List String) : IState K :=
  if s.obsoleteKinetic ∧ "mvv" ∈ req then
    { s with steps := s.steps ++ [mvvSumStep K], obsoleteKinetic := false }
  else s

/-- Prefix match of the force-finder regex `f[0-9]*` under `re.match`: the
pattern matches at the start of a name exactly when its first character is
the letter `f` (zero digits already satisfy `[0-9]*`). -/
def matchesForceRegex (s : String) : Bool :=
  match s.data with
  | [] => false
  | c :: _ => c == 'f'

/-- Second half of `Integrator._checkUpdate`: if the context state is
stale and any required symbol matches the force-finder regex, append
`addUpdateContextState` and clear that flag. -/
def checkContext {K : Type} [Field K] (s : IState K) (req : List String) : IState K :=
  if s.obsoleteContextState ∧ req.any matchesForceRegex then
    { s with steps := s.steps ++ [Step.updateContextState], obsoleteContextState := false }
  else s

/-- `Integrator._checkUpdate`: the kinetic-energy check followed by the
context-state check, over the operation's required variables. -/
def checkUpdate {K : Type} [Field K] (s : IState K) (v : String) (e : Expr K)
    (defs : List (String × Expr K)) : IState K :=
  checkContext (checkKinetic s (requiredVariables v e defs)) (requiredVariables v e defs)

/-- `Integrator.addComputeGlobal`: assigning the reserved variable `mvv`
raises `InputError` before anything happens; otherwise `_checkUpdate` runs
and the compute step is appended.  The result pairs the object state after
the call with the raised error, if any: a raise leaves the state
untouched. -/
def addComputeGlobalI {K : Type} [Field K] (s : IState K) (v : String) (e : Expr K)
    (defs : List (String × Expr K)) : IState K × Option AtomsmmError :=
  if v = "mvv" then
    (s, some (.inputError "Cannot assign value to global variable mvv"))
  else
    let s1 := checkUpdate s v e defs
    ({ s1 with steps := s1.steps ++ [Step.computeGlobal v e defs] }, none)

/-- `Integrator.addComputePerDof`: `_checkUpdate`, append the compute step,
then mark the kinetic energy stale when the assigned variable is `v`. -/
def addComputePerDofI {K : Type} [Field K] (s : IState K) (v : String) (e : Expr K)
    (defs : List (String × Expr K)) : IState K :=
  let s1 := checkUpdate s v e defs
  let s2 := { s1 with steps := s1.steps ++ [Step.computePerDof v e defs] }
  if v = "v" then { s2 with obsoleteKinetic := true } else s2

/-- Command alphabet of step programs assembled through the two generic
computation calls of the `Integrator`. -/
inductive Cmd (K : Type) where
  | global (v : String) (e : Expr K) (defs : List (String × Expr K))
  | perDof (v : String) (e : Expr K) (defs : List (String × Expr K))

/-- One command against the integrator state; a raised error propagates to
the caller and leaves the state unchanged. -/
def runCmd {K : Type} [Field K] (s : IState K) : Cmd K → IState K
  | .global v e defs => (addComputeGlobalI s v e defs).1
  | .perDof v e defs => addComputePerDofI s v e defs

/-- Run a command sequence against a fresh integrator. -/
def runCmds {K : Type} [Field K] (cmds : List (Cmd K)) : IState K :=
  cmds.foldl runCmd (initIState K)

/-- Does a step's expression require the global variable `mvv`? -/
def referencesMvv {K : Type} : Step K → Bool
  | .computeGlobal v e defs => decide ("mvv" ∈ requiredVariables v e defs)
  | .computePerDof v e defs => decide ("mvv" ∈ requiredVariables v e defs)
  | .computeSum v e => decide ("mvv" ∈ requiredVariables v e [])
  | _ => false

/-- Is a step a per-dof assignment to the velocity `v`? -/
def assignsV {K : Type} : Step K → Bool
  | .computePerDof v _ _ => v == "v"
  | _ => false

/-- Step at position `i` of an assembled program (`endBlock` as the inert
out-of-range default). -/
def stepAt {K : Type} (l : List (Step K)) (i : Nat) : Step K :=
  l.getD i Step.endBlock

/-- Invariant relating an assembled step program to the `obsoleteKinetic`
flag: (1) every step requiring `mvv` is preceded by an `mvv` sum with no
velocity assignment in between; (2) a clear flag means such a sum with a
clean tail exists; (3) two `mvv` sums always have a velocity assignment
strictly between them; (4) a set flag means every `mvv` sum is followed by
a later velocity assignment. -/
def MvvInv {K : Type} [Field K] (l : List (Step K)) (ok : Bool) : Prop :=
  (∀ i, i < l.length → referencesMvv (stepAt l i) = true →
    ∃ j, j < i ∧ stepAt l j = mvvSumStep K ∧
      ∀ k, j < k → k < i → assignsV (stepAt l k) = false)
  ∧ (ok = false →
      ∃ j, j < l.length ∧ stepAt l j = mvvSumStep K ∧
        ∀ k, j < k → k < l.length → assignsV (stepAt l k) = false)
  ∧ (∀ j1 j2, j1 < j2 → j2 < l.length →
      stepAt l j1 = mvvSumStep K → stepAt l j2 = mvvSumStep K →
      ∃ k, j1 < k ∧ k < j2 ∧ assignsV (stepAt l k) = true)
  ∧ (ok = true →
      ∀ j, j < l.length → stepAt l j = mvvSumStep K →
        ∃ k, j < k ∧ k < l.length ∧ assignsV (stepAt l k) = true)

theorem stepAt_append_lt {K : Type} (l : List (Step K)) (st : Step K) (i : Nat)
    (h : i < l.length) : stepAt (l ++ [st]) i = stepAt l i := by
  unfold stepAt
  exact List.getD_append _ _ _ _ h

theorem stepAt_append_len {K : Type} (l : List (Step K)) (st : Step K) :
    stepAt (l ++ [st]) l.length = st := by
  unfold stepAt
  rw [List.getD_append_right _ _ _ _ (le_refl _)]
  simp

theorem referencesMvv_mvvSumStep {K : Type} [Field K] :
    referencesMvv (mvvSumStep K) = false := by
  rfl

theorem assignsV_mvvSumStep {K : Type} [Field K] : assignsV (mvvSumStep K) = false := by
  rfl

theorem mvvInv_append_sum {K : Type} [Field K] (l : List (Step K))
    (h : MvvInv l true) : MvvInv (l ++ [mvvSumStep K]) false := by
  obtain ⟨h1, _h2, h3, h4⟩ := h
  refine ⟨?_, ?_, ?_, ?_⟩
  · intro i hi href
    simp at hi
    rcases Nat.lt_succ_iff_lt_or_eq.mp hi with hlt | heq
    · obtain ⟨j, hj, hsum, hclean⟩ := h1 i hlt (by rwa [stepAt_append_lt _ _ _ hlt] at href)
      exact ⟨j, hj, by rw [stepAt_append_lt _ _ _ (hj.trans hlt)]; exact hsum,
        fun k hk1 hk2 => by
          rw [stepAt_append_lt _ _ _ (hk2.trans hlt)]; exact hclean k hk1 hk2⟩
    · subst heq
      rw [stepAt_append_len, referencesMvv_mvvSumStep] at href
      exact absurd href (by simp)
  · intro _
    refine ⟨l.length, by simp, stepAt_append_len _ _, ?_⟩
    intro k hk1 hk2
    simp at hk2
    omega
  · intro j1 j2 h12 h2len hs1 hs2
    simp at h2len
    rcases Nat.lt_succ_iff_lt_or_eq.mp h2len with hlt | heq
    · have hs1' := hs1
      rw [stepAt_append_lt _ _ _ (h12.trans hlt)] at hs1'
      rw [stepAt_append_lt _ _ _ hlt] at hs2
      obtain ⟨k, hk1, hk2, hka⟩ := h3 j1 j2 h12 hlt hs1' hs2
      exact ⟨k, hk1, hk2, by rw [stepAt_append_lt _ _ _ (hk2.trans hlt)]; exact hka⟩
    · subst heq
      have hj1 : j1 < l.length := h12
      rw [stepAt_append_lt _ _ _ hj1] at hs1
      obtain ⟨k, hk1, hk2, hka⟩ := h4 rfl j1 hj1 hs1
      exact ⟨k, hk1, hk2, by rw [stepAt_append_lt _ _ _ hk2]; exact hka⟩
  · intro hcon
    exact absurd hcon (by simp)

theorem mvvInv_append_step {K : Type} [Field K] (l : List (Step K)) (ok : Bool)
    (st : Step K) (h : MvvInv l ok)
    (href : referencesMvv st = true → ok = false)
    (hsum : st ≠ mvvSumStep K) :
    MvvInv (l ++ [st]) (if assignsV st then true else ok) := by
  obtain ⟨h1, h2, h3, h4⟩ := h
  refine ⟨?_, ?_, ?_, ?_⟩
  · intro i hi hrefi
    simp at hi
    rcases Nat.lt_succ_iff_lt_or_eq.mp hi with hlt | heq
    · obtain ⟨j, hj, hsumj, hclean⟩ :=
        h1 i hlt (by rwa [stepAt_append_lt _ _ _ hlt] at hrefi)
      exact ⟨j, hj, by rw [stepAt_append_lt _ _ _ (hj.trans hlt)]; exact hsumj,
        fun k hk1 hk2 => by
          rw [stepAt_append_lt _ _ _ (hk2.trans hlt)]; exact hclean k hk1 hk2⟩
    · subst heq
      rw [stepAt_append_len] at hrefi
      obtain ⟨j, hj, hsumj, hclean⟩ := h2 (href hrefi)
      exact ⟨j, hj, by rw [stepAt_append_lt _ _ _ hj]; exact hsumj,
        fun k hk1 hk2 => by
          rw [stepAt_append_lt _ _ _ hk2]; exact hclean k hk1 hk2⟩
  · intro hok
    by_cases ha : assignsV st = true
    · simp [ha] at hok
    · simp only [ha] at hok
      simp [Bool.not_eq_true] at ha
      obtain ⟨j, hj, hsumj, hclean⟩ := h2 (by simpa using hok)
      refine ⟨j, by simp; omega, by rw [stepAt_append_lt _ _ _ hj]; exact hsumj, ?_⟩
      intro k hk1 hk2
      simp at hk2
      rcases Nat.lt_succ_iff_lt_or_eq.mp hk2 with hlt | heq
      · rw [stepAt_append_lt _ _ _ hlt]; exact hclean k hk1 hlt
      · subst heq
        rw [stepAt_append_len]
        exact ha
  · intro j1 j2 h12 h2len hs1 hs2
    simp at h2len
    rcases Nat.lt_succ_iff_lt_or_eq.mp h2len with hlt | heq
    · have hs1' := hs1
      rw [stepAt_append_lt _ _ _ (h12.trans hlt)] at hs1'
      rw [stepAt_append_lt _ _ _ hlt] at hs2
      obtain ⟨k, hk1, hk2, hka⟩ := h3 j1 j2 h12 hlt hs1' hs2
      exact ⟨k, hk1, hk2, by rw [stepAt_append_lt _ _ _ (hk2.trans hlt)]; exact hka⟩
    · subst heq
      rw [stepAt_append_len] at hs2
      exact absurd hs2 hsum
  · intro hok j hj hsumj
    simp at hj
    have hjlt : j < l.length := by
      rcases Nat.lt_succ_iff_lt_or_eq.mp hj with hlt | heq
      · exact hlt
      · subst heq
        rw [stepAt_append_len] at hsumj
        exact absurd hsumj hsum
    rw [stepAt_append_lt _ _ _ hjlt] at hsumj
    by_cases ha : assignsV st = true
    · exact ⟨l.length, hjlt, by simp, by rw [stepAt_append_len]; exact ha⟩
    · simp only [ha] at hok
      simp [Bool.not_eq_true] at ha
      obtain ⟨k, hk1, hk2, hka⟩ := h4 (by simpa using hok) j hjlt hsumj
      exact ⟨k, hk1, by simp; omega, by rw [stepAt_append_lt _ _ _ hk2]; exact hka⟩

theorem checkContext_kinetic {K : Type} [Field K] (s : IState K) (req : List String) :
    (checkContext s req).obsoleteKinetic = s.obsoleteKinetic := by
  unfold checkContext
  split <;> rfl

theorem checkKinetic_clears {K : Type} [Field K] (s : IState K) (req : List String)
    (hmem : "mvv" ∈ req) : (checkKinetic s req).obsoleteKinetic = false := by
  unfold checkKinetic
  by_cases hk : s.obsoleteKinetic = true
  · simp [hk, hmem]
  · simp at hk
    simp [hk, hmem]

theorem checkUpdate_post {K : Type} [Field K] (s : IState K) (v : String) (e : Expr K)
    (defs : List (String × Expr K)) (hmem : "mvv" ∈ requiredVariables v e defs) :
    (checkUpdate s v e defs).obsoleteKinetic = false := by
  unfold checkUpdate
  rw [checkContext_kinetic]
  exact checkKinetic_clears _ _ hmem

theorem mvvInv_checkKinetic {K : Type} [Field K] (s : IState K) (req : List String)
    (h : MvvInv s.steps s.obsoleteKinetic) :
    MvvInv (checkKinetic s req).steps (checkKinetic s req).obsoleteKinetic := by
  unfold checkKinetic
  by_cases hk : s.obsoleteKinetic = true ∧ "mvv" ∈ req
  · rw [if_pos hk]
    exact mvvInv_append_sum s.steps (hk.1 ▸ h)
  · rw [if_neg hk]
    exact h

theorem mvvInv_checkContext {K : Type} [Field K] (s : IState K) (req : List String)
    (h : MvvInv s.steps s.obsoleteKinetic) :
    MvvInv (checkContext s req).steps (checkContext s req).obsoleteKinetic := by
  unfold checkContext
  by_cases hc : s.obsoleteContextState = true ∧ req.any matchesForceRegex = true
  · rw [if_pos hc]
    have happ := mvvInv_append_step s.steps s.obsoleteKinetic Step.updateContextState h
      (fun hh => absurd hh (by simp [referencesMvv])) (by simp [mvvSumStep])
    simpa [assignsV] using happ
  · rw [if_neg hc]
    exact h

theorem mvvInv_checkUpdate {K : Type} [Field K] (s : IState K) (v : String) (e : Expr K)
    (defs : List (String × Expr K)) (h : MvvInv s.steps s.obsoleteKinetic) :
    MvvInv (checkUpdate s v e defs).steps (checkUpdate s v e defs).obsoleteKinetic := by
  unfold checkUpdate
  exact mvvInv_checkContext _ _ (mvvInv_checkKinetic _ _ h)

theorem mvvInv_runCmd {K : Type} [Field K] (s : IState K) (c : Cmd K)
    (h : MvvInv s.steps s.obsoleteKinetic) :
    MvvInv (runCmd s c).steps (runCmd s c).obsoleteKinetic := by
  cases c with
  | global v e defs =>
    by_cases hv : v = "mvv"
    · simpa [runCmd, addComputeGlobalI, hv] using h
    · have h1 := mvvInv_checkUpdate s v e defs h
      have happ := mvvInv_append_step (checkUpdate s v e defs).steps
        (checkUpdate s v e defs).obsoleteKinetic (Step.computeGlobal v e defs) h1
        (fun hh => by
          have hmem : "mvv" ∈ requiredVariables v e defs := by
            simpa [referencesMvv] using hh
          exact checkUpdate_post s v e defs hmem)
        (by simp [mvvSumStep])
      simp only [runCmd, addComputeGlobalI, hv, if_neg hv]
      simpa [assignsV] using happ
  | perDof v e defs =>
    have h1 := mvvInv_checkUpdate s v e defs h
    have happ := mvvInv_append_step (checkUpdate s v e defs).steps
      (checkUpdate s v e defs).obsoleteKinetic (Step.computePerDof v e defs) h1
      (fun hh => by
        have hmem : "mvv" ∈ requiredVariables v e defs := by
          simpa [referencesMvv] using hh
        exact checkUpdate_post s v e defs hmem)
      (by simp [mvvSumStep])
    by_cases hv : v = "v"
    · subst hv
      simp only [runCmd, addComputePerDofI, if_pos rfl]
      simpa [assignsV] using happ
    · simp only [runCmd, addComputePerDofI, if_neg hv]
      simpa [assignsV, hv] using happ

theorem mvvInv_runCmds {K : Type} [Field K] (cmds : List (Cmd K)) :
    MvvInv (runCmds cmds).steps (runCmds cmds).obsoleteKinetic := by
  unfold runCmds
  have hfold : ∀ s : IState K, MvvInv s.steps s.obsoleteKinetic →
      MvvInv (cmds.foldl runCmd s).steps (cmds.foldl runCmd s).obsoleteKinetic := by
    induction cmds with
    | nil => intro s hs; simpa
    | cons c t ih => intro s hs; simpa using ih _ (mvvInv_runCmd s c hs)
  refine hfold _ ⟨by simp [initIState, stepAt], by simp [initIState], ?_, ?_⟩
  · intro j1 j2 _ h2len
    simp [initIState] at h2len
  · intro _ j hj
    simp [initIState] at hj

/-- Deep copy (`copy.deepcopy`) of the propagator object at index `i` of a
store of live objects: a fresh isomorphic object is appended and its index
returned; the original objects are untouched. -/
def deepcopyAt {K : Type} (store : List (Propg K)) (i : Nat) :
    List (Propg K) × Nat :=
  (store ++ [store.getD i .translation], store.length)

/-- Attributes a binary combinator object holds after `__init__`: the
indices of its two deep copies (`self.A`, `self.B`) and its own registries
merged from the copies. -/
structure BinObj (K : Type) where
  A : Nat
  B : Nat
  globalVars : List (String × K)
  perDofVars : List (String × K)

/-- Shared `__init__` body of `ChainedPropagator` and
`TrotterSuzukiPropagator` (their sources are identical) over a store:
deep-copy `A`, deep-copy `B`, then fold the copies' registries into the
fresh object's own dicts. -/
def binNew {K : Type} [Field K] (store : List (Propg K)) (iA iB : Nat) :
    List (Propg K) × BinObj K :=
  let r1 := deepcopyAt store iA
  let r2 := deepcopyAt r1.1 iB
  (r2.1,
   { A := r1.2, B := r2.2,
     globalVars :=
       dictUpdate (dictUpdate [] (globalVariables (r2.1.getD r1.2 .translation)))
         (globalVariables (r2.1.getD r2.2 .translation)),
     perDofVars :=
       dictUpdate (dictUpdate [] (perDofVariables (r2.1.getD r1.2 .translation)))
         (perDofVariables (r2.1.getD r2.2 .translation)) })

/-- `ChainedPropagator.addSteps` of a combinator object, reading the
children it owns from the store through the stored indices. -/
def chainedObjSteps {K : Type} [Field K] (cbrt2 : K) (store : List (Propg K))
    (c : BinObj K) (f : K) : List (Step K) :=
  addSteps cbrt2 (store.getD c.B .translation) f ++
    addSteps cbrt2 (store.getD c.A .translation) f

/-- `TrotterSuzukiPropagator.addSteps` of a combinator object. -/
def trotterObjSteps {K : Type} [Field K] (cbrt2 : K) (store : List (Propg K))
    (c : BinObj K) (f : K) : List (Step K) :=
  addSteps cbrt2 (store.getD c.B .translation) (1 / 2 * f) ++
    (addSteps cbrt2 (store.getD c.A .translation) f ++
      addSteps cbrt2 (store.getD c.B .translation) (1 / 2 * f))

/-- Attributes a `SuzukiYoshidaPropagator` object holds: the index of the
deep copy of its child, the order `nsy`, and its registries. -/
structure UnObj (K : Type) where
  A : Nat
  nsy : Int
  globalVars : List (String × K)
  perDofVars : List (String × K)

/-- `SuzukiYoshidaPropagator.__init__` over a store: validate the order,
then deep-copy the child and copy its registries. -/
def syNew {K : Type} [Field K] (store : List (Propg K)) (iA : Nat) (nsy : Int) :
    Except AtomsmmError (List (Propg K) × UnObj K) :=
  if nsy ∉ ([3, 7, 15] : List Int) then
    Except.error (.inputError "SuzukiYoshidaPropagator accepts nsy = 3, 7, or 15 only")
  else
    let r1 := deepcopyAt store iA
    Except.ok (r1.1,
      { A := r1.2, nsy := nsy,
        globalVars := dictUpdate [] (globalVariables (r1.1.getD r1.2 .translation)),
        perDofVars := dictUpdate [] (perDofVariables (r1.1.getD r1.2 .translation)) })

/-- `SuzukiYoshidaPropagator.addSteps` of a combinator object. -/
def syObjSteps {K : Type} [Field K] (cbrt2 : K) (store : List (Propg K))
    (c : UnObj K) (f : K) : List (Step K) :=
  (syWeightSeq cbrt2 c.nsy).bind
    (fun w => addSteps cbrt2 (store.getD c.A .translation) (f * w))

/-- In-place mutation of the propagator object at index `j` of a store:
replace it with an arbitrary new state (covering any change to its
registries or internal attributes). -/
def mutateAt {K : Type} (store : List (Propg K)) (j : Nat) (P : Propg K) :
    List (Propg K) :=
  store.set j P

theorem getD_set_ne {α : Type} (l : List α) (j i : Nat) (P : α) (d : α)
    (h : j ≠ i) : (l.set j P).getD i d = l.getD i d := by
  simp [List.getD_eq_getElem?_getD, List.getElem?_set_ne h]

/-- Interpretation of the transcendental function symbols of the
expression language: the branch-selection claims hold for every
interpretation, so they are parameters rather than fixed functions. -/
structure Funs (K : Type) where
  fsinh : K → K
  fcosh : K → K
  fsqrt : K → K
  fexp : K → K
  fpow : K → K → K

/-- Value of an expression in an environment, with OpenMM semantics for
the special forms: `step(y)` is `0` for `y < 0` and `1` otherwise, and
`select(c, a, b)` is `b` when `c = 0` and `a` otherwise. -/
def evalExpr {K : Type} [LinearOrderedField K] (F : Funs K) (env : String → K) :
    Expr K → K
  | .const c => c
  | .evar s => env s
  | .add a b => evalExpr F env a + evalExpr F env b
  | .sub a b => evalExpr F env a - evalExpr F env b
  | .mul a b => evalExpr F env a * evalExpr F env b
  | .div a b => evalExpr F env a / evalExpr F env b
  | .pow a b => F.fpow (evalExpr F env a) (evalExpr F env b)
  | .select c a b => if evalExpr F env c = 0 then evalExpr F env b else evalExpr F env a
  | .stepFn a => if evalExpr F env a < 0 then 0 else 1
  | .sinhE a => F.fsinh (evalExpr F env a)
  | .coshE a => F.fcosh (evalExpr F env a)
  | .sqrtE a => F.fsqrt (evalExpr F env a)
  | .expE a => F.fexp (evalExpr F env a)
  | .lt a b => if evalExpr F env a < evalExpr F env b then 1 else 0

/-- The `select(step(bdt - t), direct, safe)` pattern emitted by the
isokinetic propagator for both of its numerically delicate kernels. -/
def thresholdSelect {K : Type} (t : K) : Expr K :=
  .select (.stepFn (.sub (.evar "bdt") (.const t))) (.evar "direct") (.evar "safe")

theorem eval_thresholdSelect {K : Type} [LinearOrderedField K] (F : Funs K)
    (env : String → K) (t : K) :
    evalExpr F env (thresholdSelect t) =
      if t ≤ env "bdt" then env "direct" else env "safe" := by
  by_cases h : env "bdt" - t < 0
  · have h2 : ¬ t ≤ env "bdt" := by
      intro hle
      have := sub_nonneg.mpr hle
      linarith
    simp [evalExpr, thresholdSelect, h, h2]
  · have h2 : t ≤ env "bdt" := by
      have := not_lt.mp h
      linarith
    simp [evalExpr, thresholdSelect, h, h2, one_ne_zero]

/-- C2: for every pair of propagators and every fraction,
`TrotterSuzukiPropagator(A, B).addSteps` emits exactly B's steps at
`0.5*fraction`, then A's steps at `fraction`, then B's steps at
`0.5*fraction` again, and the total fraction delivered to B across the two
halves equals the fraction exactly. -/
theorem trotterSuzuki_half_full_half :
    ∀ (cbrt2 : ℚ) (A B : Propg ℚ) (f : ℚ),
      addSteps cbrt2 (Propg.trotterSuzuki A B) f =
        addSteps cbrt2 B (1 / 2 * f) ++ addSteps cbrt2 A f ++ addSteps cbrt2 B (1 / 2 * f)
      ∧ 1 / 2 * f + 1 / 2 * f = f := by
  intro cbrt2 A B f
  constructor
  · simp [addSteps]
  · ring

/-- C5: for every pair of propagators and every fraction,
`ChainedPropagator(A, B).addSteps` emits exactly B's steps followed by A's
steps at the same fraction, and for the concrete pair of a translation and
a boost (which read and write the shared velocity variable in incompatible
ways) the two chaining orders emit different step sequences. -/
theorem chained_B_then_A_noncommutative :
    (∀ (cbrt2 : ℚ) (A B : Propg ℚ) (f : ℚ),
       addSteps cbrt2 (Propg.chained A B) f = addSteps cbrt2 B f ++ addSteps cbrt2 A f)
    ∧ addSteps (0 : ℚ) (Propg.chained Propg.translation Propg.boost) 1 ≠
        addSteps (0 : ℚ) (Propg.chained Propg.boost Propg.translation) 1 := by
  constructor
  · intro cbrt2 A B f
    simp [addSteps]
  · intro h
    simp [addSteps] at h

/-- C6: constructing `SuzukiYoshidaPropagator(A, nsy)` raises the named
`InputError` at construction time exactly when `nsy` is not 3, 7 or 15,
and succeeds otherwise. -/
theorem suzukiYoshida_order_validated :
    ∀ (A : Propg ℚ) (nsy : Int),
      (nsy ∉ ([3, 7, 15] : List Int) →
        mkSuzukiYoshida A nsy = Except.error (AtomsmmError.inputError
          "SuzukiYoshidaPropagator accepts nsy = 3, 7, or 15 only"))
      ∧ (nsy ∈ ([3, 7, 15] : List Int) →
        mkSuzukiYoshida A nsy = Except.ok (Propg.suzukiYoshida A nsy)) := by
  intro A nsy
  constructor
  · intro h
    simp [mkSuzukiYoshida, h]
  · intro h
    simp [mkSuzukiYoshida, h]

theorem suzukiYoshida_order_validated_witness :
    ((4 : Int) ∉ ([3, 7, 15] : List Int) ∧
      mkSuzukiYoshida (Propg.translation (K := ℚ)) 4 = Except.error (AtomsmmError.inputError
        "SuzukiYoshidaPropagator accepts nsy = 3, 7, or 15 only"))
    ∧ ((3 : Int) ∈ ([3, 7, 15] : List Int) ∧
      mkSuzukiYoshida (Propg.translation (K := ℚ)) 3 =
        Except.ok (Propg.suzukiYoshida Propg.translation 3)) :=
  ⟨⟨by decide, (suzukiYoshida_order_validated Propg.translation 4).1 (by decide)⟩,
   ⟨by decide, (suzukiYoshida_order_validated Propg.translation 3).2 (by decide)⟩⟩

/-- C7: calling `addComputeGlobal` with the reserved kinetic-energy
accumulator `mvv` as the assigned variable is rejected immediately with
the named `InputError`, and the integrator state (in particular its step
program) is returned unchanged. -/
theorem integrator_rejects_mvv_assignment :
    ∀ (s : IState ℚ) (e : Expr ℚ) (defs : List (String × Expr ℚ)),
      addComputeGlobalI s "mvv" e defs =
        (s, some (AtomsmmError.inputError "Cannot assign value to global variable mvv")) := by
  intro s e defs
  simp [addComputeGlobalI]

theorem rlookup_merge {K : Type} [Field K] (dA dB : List (String × K)) (name : String)
    (hA : KeysNodup dA) (hB : KeysNodup dB) :
    rlookup name (dictUpdate (dictUpdate [] dA) dB) =
      (rlookup name dB).orElse (fun _ => rlookup name dA) := by
  rw [rlookup_dictUpdate _ _ hB]
  have h0 : rlookup name (dictUpdate [] dA) = rlookup name dA := by
    rw [rlookup_dictUpdate _ _ hA]
    cases rlookup name dA <;> simp [rlookup, Option.orElse]
  simp only [h0]

/-- C1 counterexample: two children sharing the variable name `kT` with
different default values (1 vs 2).  Construction of the chained combinator
does not fail: it returns the composite, whose registry silently keeps the
second child's default. -/
theorem chained_conflicting_defaults_no_error :
    mkChained (Propg.isokineticF (K := ℚ) 1) (Propg.isokineticF 2) =
      Except.ok (Propg.chained (Propg.isokineticF 1) (Propg.isokineticF 2))
    ∧ rlookup "kT" (globalVariables (Propg.isokineticF (K := ℚ) 1)) = some 1
    ∧ rlookup "kT" (globalVariables (Propg.isokineticF (K := ℚ) 2)) = some 2
    ∧ rlookup "kT" (globalVariables
        (Propg.chained (Propg.isokineticF (K := ℚ) 1) (Propg.isokineticF 2))) = some 2 := by
  refine ⟨rfl, ?_, ?_, ?_⟩ <;> decide

/-- C1 amended: on every binary combinator construction the children's
registries are merged so that each name keeps a single entry, with the
second child's default silently overriding the first child's on a
collision; construction always succeeds (no conflict check exists), and
persistence markings are not merged at all (the composite keeps the
empty list from the base class). -/
theorem binary_merge_single_entry_B_overrides :
    ∀ (A B : Propg ℚ) (name : String),
      mkChained A B = Except.ok (Propg.chained A B)
      ∧ mkTrotterSuzuki A B = Except.ok (Propg.trotterSuzuki A B)
      ∧ rlookup name (globalVariables (Propg.chained A B)) =
          (rlookup name (globalVariables B)).orElse
            (fun _ => rlookup name (globalVariables A))
      ∧ rlookup name (perDofVariables (Propg.chained A B)) =
          (rlookup name (perDofVariables B)).orElse
            (fun _ => rlookup name (perDofVariables A))
      ∧ rlookup name (globalVariables (Propg.trotterSuzuki A B)) =
          (rlookup name (globalVariables B)).orElse
            (fun _ => rlookup name (globalVariables A))
      ∧ rlookup name (perDofVariables (Propg.trotterSuzuki A B)) =
          (rlookup name (perDofVariables B)).orElse
            (fun _ => rlookup name (perDofVariables A))
      ∧ KeysNodup (globalVariables (Propg.chained A B))
      ∧ KeysNodup (perDofVariables (Propg.chained A B))
      ∧ KeysNodup (globalVariables (Propg.trotterSuzuki A B))
      ∧ KeysNodup (perDofVariables (Propg.trotterSuzuki A B))
      ∧ persistent (Propg.chained A B) = some []
      ∧ persistent (Propg.trotterSuzuki A B) = some [] := by
  intro A B name
  obtain ⟨hgA, hpA⟩ := keysNodup_registries (K := ℚ) A
  obtain ⟨hgB, hpB⟩ := keysNodup_registries (K := ℚ) B
  refine ⟨rfl, rfl, ?_, ?_, ?_, ?_,
    (keysNodup_registries _).1, (keysNodup_registries _).2,
    (keysNodup_registries _).1, (keysNodup_registries _).2, rfl, rfl⟩
  · exact rlookup_merge _ _ name hgA hgB
  · exact rlookup_merge _ _ name hpA hpB
  · exact rlookup_merge _ _ name hgA hgB
  · exact rlookup_merge _ _ name hpA hpB

theorem sum_map_mul_left {K : Type} [Field K] (f : K) (l : List K) :
    (l.map (fun w => f * w)).sum = f * l.sum := by
  induction l with
  | nil => simp
  | cons a t ih => simp [ih, mul_add]

/-- C3: for every supported order, `SuzukiYoshidaPropagator(A, nsy)`
applies A exactly `nsy` times at sub-fractions `f*w` following the
time-symmetric sequence `reverse(weights) + [1 - 2*sum(weights)] +
weights`, whose sum is exactly `f`; for `nsy = 3` the three fractions are
`[w*f, (1 - 2*w)*f, w*f]` with base weight `w = 1/(2 - 2^(1/3))` (`cbrt2`
being the real cube root of two). -/
theorem suzukiYoshida_applies_A_nsy_times :
    ∀ (cbrt2 : ℝ), cbrt2 ^ (3 : ℕ) = 2 →
      ∀ (nsy : Int), nsy ∈ ([3, 7, 15] : List Int) →
        ∀ (A : Propg ℝ) (f : ℝ),
          addSteps cbrt2 (Propg.suzukiYoshida A nsy) f =
            (syWeightSeq cbrt2 nsy).bind (fun w => addSteps cbrt2 A (f * w))
          ∧ syWeightSeq cbrt2 nsy =
              (syWeights cbrt2 nsy).reverse ++
                ([1 - 2 * (syWeights cbrt2 nsy).sum] ++ syWeights cbrt2 nsy)
          ∧ (syWeightSeq cbrt2 nsy).length = nsy.toNat
          ∧ (syWeightSeq cbrt2 nsy).sum = 1
          ∧ ((syWeightSeq cbrt2 nsy).map (fun w => f * w)).sum = f
          ∧ (nsy = 3 →
              (syWeightSeq cbrt2 nsy).map (fun w => f * w) =
                [1 / (2 - cbrt2) * f, (1 - 2 * (1 / (2 - cbrt2))) * f,
                 1 / (2 - cbrt2) * f]) := by
  intro cbrt2 _hc nsy hmem A f
  have hsum : (syWeightSeq cbrt2 nsy).sum = 1 := by
    unfold syWeightSeq
    rw [List.sum_append, List.sum_append, List.sum_reverse, List.sum_singleton]
    ring
  refine ⟨by simp [addSteps], by simp [syWeightSeq], ?_, hsum, ?_, ?_⟩
  · simp at hmem
    rcases hmem with h | h | h <;> subst h <;> simp [syWeightSeq, syWeights]
  · rw [sum_map_mul_left, hsum, mul_one]
  · intro h3
    subst h3
    simp [syWeightSeq, syWeights, mul_comm]

theorem suzukiYoshida_applies_A_nsy_times_witness :
    ((2 : ℝ) ^ ((1 : ℝ) / 3)) ^ (3 : ℕ) = 2
    ∧ (3 : Int) ∈ ([3, 7, 15] : List Int)
    ∧ (syWeightSeq ((2 : ℝ) ^ ((1 : ℝ) / 3)) 3).sum = 1
    ∧ (syWeightSeq ((2 : ℝ) ^ ((1 : ℝ) / 3)) 3).length = (3 : Int).toNat := by
  have hcube : ((2 : ℝ) ^ ((1 : ℝ) / 3)) ^ (3 : ℕ) = 2 := by
    rw [← Real.rpow_natCast ((2 : ℝ) ^ ((1 : ℝ) / 3)) 3, ← Real.rpow_mul (by norm_num)]
    norm_num
  refine ⟨hcube, by decide, ?_, ?_⟩
  · exact (suzukiYoshida_applies_A_nsy_times _ hcube 3 (by decide)
      Propg.translation 1).2.2.2.1
  · exact (suzukiYoshida_applies_A_nsy_times _ hcube 3 (by decide)
      Propg.translation 1).2.2.1

/-- C4: for every list of positive loop counts, the RESPA propagator
emitted at fraction 1 produces an execution in which the level-0 position
update runs exactly the product of all loop counts times, and the
accumulated position-update fraction is exactly 1 under exact rational
scaling of the per-level fraction division. -/
theorem respa_position_count_and_fraction :
    ∀ (loops : List Nat), loops ≠ [] → (∀ n ∈ loops, 1 ≤ n) →
      addSteps (0 : ℚ) (Propg.respa loops) 1 =
        flattenR (respaProg loops (loops.length - 1) 1)
      ∧ posCount (execRL (respaProg (K := ℚ) loops (loops.length - 1) 1)) = loops.prod
      ∧ posFracSum (execRL (respaProg (K := ℚ) loops (loops.length - 1) 1)) = 1 := by
  intro loops hne hpos
  have hlen : 0 < loops.length := List.length_pos.mpr hne
  have hlt : loops.length - 1 < loops.length := Nat.sub_lt hlen Nat.one_pos
  obtain ⟨hc, hs⟩ := respaExec_count_sum loops hpos (loops.length - 1) hlt 1
  have htake : loops.length - 1 + 1 = loops.length := Nat.succ_pred_eq_of_pos hlen
  refine ⟨by simp [addSteps], ?_, hs⟩
  rw [hc, htake, List.take_length]

theorem respa_position_count_and_fraction_witness :
    (([2, 3] : List Nat) ≠ [] ∧ (∀ n ∈ ([2, 3] : List Nat), 1 ≤ n))
    ∧ posCount (execRL (respaProg (K := ℚ) [2, 3] 1 1)) = 6
    ∧ posFracSum (execRL (respaProg (K := ℚ) [2, 3] 1 1)) = 1 := by
  have h := respa_position_count_and_fraction [2, 3] (by decide) (by decide)
  exact ⟨⟨by decide, by decide⟩, by simpa using h.2.1, by simpa using h.2.2⟩

/-- C9: the isokinetic propagator's emitted computation of `sinh(x)/x`
selects between a direct closed form and a Taylor polynomial through
`select(step(bdt - 1E-4), direct, safe)` and its computation of
`(cosh(x)-1)/x^2` through `select(step(bdt - 1E-3), direct, safe)`, in
every invocation; under the engine's `step`/`select` semantics the direct
branch is taken exactly when `bdt` is at or above the threshold. -/
theorem isokineticF_branch_selection :
    ∀ (kT f cbrt2 : ℚ),
      (∃ pre mid post d1 d2,
        addSteps cbrt2 (Propg.isokineticF kT) f =
          pre ++ (Step.computePerDof "sinhx_x" (thresholdSelect (1 / 10000)) d1 ::
            (mid ++ (Step.computePerDof "coshxm1_x2" (thresholdSelect (1 / 1000)) d2 ::
              post)))
        ∧ rlookup "direct" d1 = some (.div (.sinhE (.evar "bdt")) (.evar "bdt"))
        ∧ rlookup "direct" d2 =
            some (.div (.sub (.coshE (.evar "bdt")) (.const 1)) (.evar "x"))
        ∧ rlookup "x" d1 = some (.pow (.evar "bdt") (.const 2))
        ∧ rlookup "x" d2 = some (.pow (.evar "bdt") (.const 2)))
      ∧ (∀ (F : Funs ℚ) (env : String → ℚ),
          evalExpr F env (thresholdSelect ((1 : ℚ) / 10000)) =
            (if (1 : ℚ) / 10000 ≤ env "bdt" then env "direct" else env "safe")
          ∧ evalExpr F env (thresholdSelect ((1 : ℚ) / 1000)) =
            (if (1 : ℚ) / 1000 ≤ env "bdt" then env "direct" else env "safe")) := by
  intro kT f cbrt2
  constructor
  · exact
      ⟨[Step.computePerDof "lambda0dt"
          (.div (.mul (.mul (.mul (.const f) (.evar "dt")) (.evar "f")) (.evar "v"))
            (.evar "kT")) [],
        Step.computePerDof "bdt"
          (.mul (.mul (.const f) (.evar "dt"))
            (.sqrtE (.div (.mul (.evar "f") (.evar "f")) (.mul (.evar "m") (.evar "kT"))))) []],
       [],
       [Step.computePerDof "v"
          (.div (.add (.evar "v") (.div (.mul (.evar "s") (.evar "f")) (.evar "m")))
            (.evar "sdif"))
          [("s", .mul (.mul (.const f) (.evar "dt"))
              (.add (.mul (.evar "lambda0dt") (.evar "coshxm1_x2")) (.evar "sinhx_x"))),
           ("sdif", .add (.add (.mul (.evar "lambda0dt") (.evar "sinhx_x"))
              (.mul (.mul (.evar "bdt") (.evar "bdt")) (.evar "coshxm1_x2"))) (.const 1))],
        Step.computePerDof "v1" (.div (.evar "v1") (.evar "sdif"))
          [("sdif", .add (.add (.mul (.evar "lambda0dt") (.evar "sinhx_x"))
              (.mul (.mul (.evar "bdt") (.evar "bdt")) (.evar "coshxm1_x2"))) (.const 1))]],
       [("direct", .div (.sinhE (.evar "bdt")) (.evar "bdt")),
        ("safe",
          .add (.div (.mul (.add (.div (.mul (.add (.div (.evar "x") (.const 42)) (.const 1))
            (.evar "x")) (.const 20)) (.const 1)) (.evar "x")) (.const 6)) (.const 1)),
        ("x", .pow (.evar "bdt") (.const 2))],
       [("direct", .div (.sub (.coshE (.evar "bdt")) (.const 1)) (.evar "x")),
        ("safe",
          .add (.div (.mul (.add (.div (.mul (.add (.div (.evar "x") (.const 56)) (.const 1))
            (.evar "x")) (.const 30)) (.const 1)) (.evar "x")) (.const 24)) (.const (1 / 2))),
        ("x", .pow (.evar "bdt") (.const 2))],
       by simp [addSteps, thresholdSelect], by decide, by decide, by decide, by decide⟩
  · intro F env
    exact ⟨eval_thresholdSelect F env _, eval_thresholdSelect F env _⟩

/-- C10: in every step program assembled through the Integrator's
`addComputeGlobal`/`addComputePerDof` calls, every compute step whose
expression references `mvv` is preceded by an automatically inserted
`mvv = m*v*v` sum with no per-dof velocity assignment in between, and the
sum is inserted at most once between consecutive velocity assignments
(two sums always have a velocity assignment strictly between them). -/
theorem integrator_mvv_summed_before_use :
    ∀ (cmds : List (Cmd ℚ)),
      (∀ i, i < (runCmds cmds).steps.length →
         referencesMvv (stepAt (runCmds cmds).steps i) = true →
         ∃ j, j < i ∧ stepAt (runCmds cmds).steps j = mvvSumStep ℚ ∧
           ∀ k, j < k → k < i → assignsV (stepAt (runCmds cmds).steps k) = false)
      ∧ (∀ j1 j2, j1 < j2 → j2 < (runCmds cmds).steps.length →
           stepAt (runCmds cmds).steps j1 = mvvSumStep ℚ →
           stepAt (runCmds cmds).steps j2 = mvvSumStep ℚ →
           ∃ k, j1 < k ∧ k < j2 ∧ assignsV (stepAt (runCmds cmds).steps k) = true) := by
  intro cmds
  obtain ⟨h1, _h2, h3, _h4⟩ := mvvInv_runCmds (K := ℚ) cmds
  exact ⟨h1, h3⟩

theorem integrator_mvv_summed_before_use_witness :
    (1 < (runCmds [Cmd.global (K := ℚ) "p" (Expr.evar "mvv") []]).steps.length
      ∧ referencesMvv
          (stepAt (runCmds [Cmd.global (K := ℚ) "p" (Expr.evar "mvv") []]).steps 1) = true)
    ∧ (∃ j, j < 1
        ∧ stepAt (runCmds [Cmd.global (K := ℚ) "p" (Expr.evar "mvv") []]).steps j =
            mvvSumStep ℚ
        ∧ ∀ k, j < k → k < 1 →
            assignsV
              (stepAt (runCmds [Cmd.global (K := ℚ) "p" (Expr.evar "mvv") []]).steps k) =
              false) :=
  ⟨⟨by decide, by decide⟩,
   (integrator_mvv_summed_before_use [Cmd.global "p" (Expr.evar "mvv") []]).1 1
     (by decide) (by decide)⟩

/-- C8: every combinator takes independent deep copies of its children at
construction: replacing (mutating) any propagator object that existed in
the store before the construction leaves the combinator's owned children,
and hence the step sequence its `addSteps` emits, unchanged.  Stated for
`ChainedPropagator`, `TrotterSuzukiPropagator` and
`SuzukiYoshidaPropagator`. -/
theorem combinators_deep_copy_children :
    (∀ (store : List (Propg ℚ)) (iA iB j : Nat), j < store.length →
      ∀ (P : Propg ℚ) (cbrt2 f : ℚ),
        chainedObjSteps cbrt2 (mutateAt (binNew store iA iB).1 j P)
            (binNew store iA iB).2 f =
          chainedObjSteps cbrt2 (binNew store iA iB).1 (binNew store iA iB).2 f
        ∧ (mutateAt (binNew store iA iB).1 j P).getD (binNew store iA iB).2.A
            Propg.translation =
          (binNew store iA iB).1.getD (binNew store iA iB).2.A Propg.translation
        ∧ (mutateAt (binNew store iA iB).1 j P).getD (binNew store iA iB).2.B
            Propg.translation =
          (binNew store iA iB).1.getD (binNew store iA iB).2.B Propg.translation)
    ∧ (∀ (store : List (Propg ℚ)) (iA iB j : Nat), j < store.length →
      ∀ (P : Propg ℚ) (cbrt2 f : ℚ),
        trotterObjSteps cbrt2 (mutateAt (binNew store iA iB).1 j P)
            (binNew store iA iB).2 f =
          trotterObjSteps cbrt2 (binNew store iA iB).1 (binNew store iA iB).2 f)
    ∧ (∀ (store : List (Propg ℚ)) (iA : Nat) (nsy : Int) (j : Nat), j < store.length →
      ∀ (P : Propg ℚ) (cbrt2 f : ℚ) (s : List (Propg ℚ)) (c : UnObj ℚ),
        syNew store iA nsy = Except.ok (s, c) →
        syObjSteps cbrt2 (mutateAt s j P) c f = syObjSteps cbrt2 s c f
        ∧ (mutateAt s j P).getD c.A Propg.translation = s.getD c.A Propg.translation) := by
  refine ⟨?_, ?_, ?_⟩
  · intro store iA iB j hj P cbrt2 f
    have hA : (binNew store iA iB).2.A = store.length := rfl
    have hB : (binNew store iA iB).2.B = store.length + 1 := by
      simp [binNew, deepcopyAt]
    have hjA : j ≠ store.length := Nat.ne_of_lt hj
    have hjB : j ≠ store.length + 1 := Nat.ne_of_lt (Nat.lt_succ_of_lt hj)
    refine ⟨?_, ?_, ?_⟩
    · unfold chainedObjSteps mutateAt
      rw [hA, hB, getD_set_ne _ _ _ _ _ hjA, getD_set_ne _ _ _ _ _ hjB]
    · unfold mutateAt
      rw [hA, getD_set_ne _ _ _ _ _ hjA]
    · unfold mutateAt
      rw [hB, getD_set_ne _ _ _ _ _ hjB]
  · intro store iA iB j hj P cbrt2 f
    have hA : (binNew store iA iB).2.A = store.length := rfl
    have hB : (binNew store iA iB).2.B = store.length + 1 := by
      simp [binNew, deepcopyAt]
    have hjA : j ≠ store.length := Nat.ne_of_lt hj
    have hjB : j ≠ store.length + 1 := Nat.ne_of_lt (Nat.lt_succ_of_lt hj)
    unfold trotterObjSteps mutateAt
    rw [hA, hB, getD_set_ne _ _ _ _ _ hjA, getD_set_ne _ _ _ _ _ hjB]
  · intro store iA nsy j hj P cbrt2 f s c hmk
    unfold syNew at hmk
    by_cases hm : nsy ∉ ([3, 7, 15] : List Int)
    · rw [if_pos hm] at hmk
      exact absurd hmk (by simp)
    · rw [if_neg hm] at hmk
      have hsc := Except.ok.inj hmk
      obtain ⟨_hs, hc⟩ := Prod.ext_iff.mp hsc
      have hcA : c.A = store.length := by
        have h3 : ((s, c).2).A = store.length := by
          rw [← hc]
          rfl
        exact h3
      have hjA : j ≠ store.length := Nat.ne_of_lt hj
      constructor
      · unfold syObjSteps mutateAt
        rw [hcA, getD_set_ne _ _ _ _ _ hjA]
      · unfold mutateAt
        rw [hcA, getD_set_ne _ _ _ _ _ hjA]

theorem combinators_deep_copy_children_witness :
    (0 < ([Propg.translation (K := ℚ)] : List (Propg ℚ)).length
      ∧ syNew ([Propg.translation (K := ℚ)] : List (Propg ℚ)) 0 3 =
          Except.ok ([Propg.translation, Propg.translation],
            ({ A := 1, nsy := 3, globalVars := [], perDofVars := [] } : UnObj ℚ)))
    ∧ chainedObjSteps 0
        (mutateAt (binNew ([Propg.translation (K := ℚ)] : List (Propg ℚ)) 0 0).1 0 Propg.boost)
        (binNew ([Propg.translation (K := ℚ)] : List (Propg ℚ)) 0 0).2 1 =
      chainedObjSteps 0 (binNew ([Propg.translation (K := ℚ)] : List (Propg ℚ)) 0 0).1
        (binNew ([Propg.translation (K := ℚ)] : List (Propg ℚ)) 0 0).2 1
    ∧ trotterObjSteps 0
        (mutateAt (binNew ([Propg.translation (K := ℚ)] : List (Propg ℚ)) 0 0).1 0 Propg.boost)
        (binNew ([Propg.translation (K := ℚ)] : List (Propg ℚ)) 0 0).2 1 =
      trotterObjSteps 0 (binNew ([Propg.translation (K := ℚ)] : List (Propg ℚ)) 0 0).1
        (binNew ([Propg.translation (K := ℚ)] : List (Propg ℚ)) 0 0).2 1
    ∧ syObjSteps 0
        (mutateAt ([Propg.translation (K := ℚ), Propg.translation] : List (Propg ℚ)) 0
          Propg.boost)
        ({ A := 1, nsy := 3, globalVars := [], perDofVars := [] } : UnObj ℚ) 1 =
      syObjSteps 0 ([Propg.translation (K := ℚ), Propg.translation] : List (Propg ℚ))
        ({ A := 1, nsy := 3, globalVars := [], perDofVars := [] } : UnObj ℚ) 1 := by
  have hsy : syNew ([Propg.translation (K := ℚ)] : List (Propg ℚ)) 0 3 =
      Except.ok ([Propg.translation, Propg.translation],
        ({ A := 1, nsy := 3, globalVars := [], perDofVars := [] } : UnObj ℚ)) := by
    rfl
  refine ⟨⟨by decide, hsy⟩, ?_, ?_, ?_⟩
  · exact (combinators_deep_copy_children.1 [Propg.translation] 0 0 0 (by decide)
      Propg.boost 0 1).1
  · exact combinators_deep_copy_children.2.1 [Propg.translation] 0 0 0 (by decide)
      Propg.boost 0 1
  · exact (combinators_deep_copy_children.2.2 [Propg.translation] 0 3 0 (by decide)
      Propg.boost 0 1 [Propg.translation, Propg.translation]
      { A := 1, nsy := 3, globalVars := [], perDofVars := [] } hsy).1

theorem chained_B_then_A_noncommutative_witness :
    addSteps (0 : ℚ) (Propg.chained Propg.boost Propg.translation) 1 =
      addSteps (0 : ℚ) Propg.translation 1 ++ addSteps (0 : ℚ) Propg.boost 1 :=
  chained_B_then_A_noncommutative.1 0 Propg.boost Propg.translation 1
